import Mathlib

/-!
Verification of the merkle-distributor contracts.

This file shallowly embeds the Solidity contracts of the repository
(`MerkleDistributorManager`, `StringMerkleDistributorManager`,
`StringMerkleDistributor`) and the spec-described library pieces that the
repository uses but does not ship under `src/` (OpenZeppelin's
`MerkleProof.verify`, the off-chain Merkle tree builder, `addDistribution`).

Machine integers are modelled as `Nat` with explicit `% 2^256` where the
EVM wraps.  `keccak256` is an abstract parameter `H : Bytes → Nat`; the
byte-level argument of every hash call is modelled exactly as
`abi.encodePacked` produces it (fixed-width big-endian words, raw string
bytes).  External token calls are oracles: `none` models a call that
reverts inside the token, `some b` a call that returns the boolean `b`.
-/

set_option maxRecDepth 100000

namespace MerkleDistributor

/-- Byte strings: lists of byte values (each `< 256`). -/
abbrev Bytes := List Nat

/-- Every entry of the list is a byte value. -/
def AllBytes (l : Bytes) : Prop := ∀ b ∈ l, b < 256

instance (l : Bytes) : Decidable (AllBytes l) := by
  unfold AllBytes; infer_instance

/-- `abi.encodePacked` rendering of an unsigned integer as `w` big-endian
bytes (the value is implicitly truncated to `w` bytes, as the EVM does). -/
def beBytes : Nat → Nat → Bytes
  | 0, _ => []
  | w + 1, v => beBytes w (v / 256) ++ [v % 256]

/-- A `uint256` / `bytes32` rendered as its 32 packed bytes. -/
def be32 (v : Nat) : Bytes := beBytes 32 v

/-- An `address` rendered as its 20 packed bytes. -/
def be20 (v : Nat) : Bytes := beBytes 20 v

theorem beBytes_length (w v : Nat) : (beBytes w v).length = w := by
  induction w generalizing v with
  | zero => rfl
  | succ w ih => simp [beBytes, ih]

theorem beBytes_allBytes (w v : Nat) : AllBytes (beBytes w v) := by
  induction w generalizing v with
  | zero => intro b hb; simp [beBytes] at hb
  | succ w ih =>
    intro b hb
    simp only [beBytes, List.mem_append, List.mem_singleton] at hb
    rcases hb with hb | hb
    · exact ih _ b hb
    · subst hb; exact Nat.mod_lt _ (by norm_num)

theorem allBytes_append {l₁ l₂ : Bytes} (h₁ : AllBytes l₁) (h₂ : AllBytes l₂) :
    AllBytes (l₁ ++ l₂) := by
  intro b hb
  rcases List.mem_append.mp hb with h | h
  · exact h₁ b h
  · exact h₂ b h

/-- A hash function is collision free on byte strings.  Used as the
idealisation of `keccak256` where a claim needs that distinct packed
encodings hash to distinct digests. -/
def BytesInjective (H : Bytes → Nat) : Prop :=
  ∀ l₁ l₂ : Bytes, AllBytes l₁ → AllBytes l₂ → H l₁ = H l₂ → l₁ = l₂

/-- A concrete collision-free stand-in for `keccak256`, used to evaluate
the development on closed inputs: a byte string is read as a base-257
numeral with digits shifted by one. -/
def byteEnc (l : Bytes) : Nat :=
  l.foldr (fun b acc => b + 1 + 257 * acc) 0

theorem byteEnc_nil : byteEnc [] = 0 := rfl

theorem byteEnc_cons (b : Nat) (t : Bytes) :
    byteEnc (b :: t) = b + 1 + 257 * byteEnc t := rfl

theorem byteEnc_bytesInjective : BytesInjective byteEnc := by
  intro l₁
  induction l₁ with
  | nil =>
    intro l₂ _ h₂ h
    cases l₂ with
    | nil => rfl
    | cons b u =>
      exfalso
      rw [byteEnc_nil, byteEnc_cons] at h
      omega
  | cons a t ih =>
    intro l₂ h₁ h₂ h
    cases l₂ with
    | nil =>
      exfalso
      rw [byteEnc_nil, byteEnc_cons] at h
      omega
    | cons b u =>
      have ha : a < 256 := h₁ a (by simp)
      have hb : b < 256 := h₂ b (by simp)
      rw [byteEnc_cons, byteEnc_cons] at h
      have hmod : a + 1 = b + 1 := by
        have h' := congrArg (· % 257) h
        simpa [Nat.add_mul_mod_self_left, Nat.mod_eq_of_lt (by omega : a + 1 < 257),
          Nat.mod_eq_of_lt (by omega : b + 1 < 257)] using h'
      have hdiv : byteEnc t = byteEnc u := by
        have h' := congrArg (· / 257) h
        simpa [Nat.add_mul_div_left, Nat.div_eq_of_lt (by omega : a + 1 < 257),
          Nat.div_eq_of_lt (by omega : b + 1 < 257)] using h'
      have ht : t = u :=
        ih u (fun x hx => h₁ x (by simp [hx])) (fun x hx => h₂ x (by simp [hx])) hdiv
      simp [ht]; omega

/-- The order-sensitive hash-pair combiner (spec §4.1): the two 32-byte
digests are packed in one of the two orders and hashed.  Which operand
comes first is decided by `pick` (the operand-order convention is kept
abstract; every theorem below holds for any convention). -/
def hashPair (H : Bytes → Nat) (pick : Nat → Nat → Bool) (a b : Nat) : Nat :=
  if pick a b then H (be32 a ++ be32 b) else H (be32 b ++ be32 a)

/-- Modelled from the spec: `MerkleProof.verify` of the OpenZeppelin
library, which the contracts import but which is not under `src/`.
Per spec §4.2, verification folds the proof sequence from the leaf
through the hash-pair combiner, producing a candidate root. -/
def processProof (H : Bytes → Nat) (pick : Nat → Nat → Bool)
    (leaf : Nat) (proof : List Nat) : Nat :=
  proof.foldl (hashPair H pick) leaf

/-- Modelled from the spec: `MerkleProof.verify(proof, root, leaf)`
(OpenZeppelin, not under `src/`): the folded candidate root is compared
to the stored root by exact equality. -/
def verify (H : Bytes → Nat) (pick : Nat → Nat → Bool)
    (proof : List Nat) (root leaf : Nat) : Bool :=
  processProof H pick leaf proof == root

/-- Modelled from the spec: one level of the off-chain Merkle tree
builder (spec §4.2, `src/merkle-tree.ts` is not under `src/`): adjacent
nodes are paired left to right; an odd trailing node is promoted
unchanged. -/
def levelUp (H : Bytes → Nat) (pick : Nat → Nat → Bool) : List Nat → List Nat
  | [] => []
  | [a] => [a]
  | a :: b :: rest => hashPair H pick a b :: levelUp H pick rest

theorem levelUp_length (H : Bytes → Nat) (pick : Nat → Nat → Bool)
    (l : List Nat) : (levelUp H pick l).length = (l.length + 1) / 2 := by
  induction l using levelUp.induct H pick with
  | case1 => rfl
  | case2 => simp [levelUp]
  | case3 a b rest ih =>
    simp only [levelUp, List.length_cons, ih]
    omega

/-- Modelled from the spec: the root of the Merkle tree built bottom-up
over an ordered leaf list (spec §4.2); the single node at the top level. -/
def buildRoot (H : Bytes → Nat) (pick : Nat → Nat → Bool) : List Nat → Nat
  | [] => 0
  | [a] => a
  | a :: b :: rest => buildRoot H pick (levelUp H pick (a :: b :: rest))
termination_by l => l.length
decreasing_by
  simp only [levelUp_length, List.length_cons]
  omega

/-- The combiner always hashes a 64-byte packed pair. -/
theorem hashPair_shape (H : Bytes → Nat) (pick : Nat → Nat → Bool) (a b : Nat) :
    ∃ x y, hashPair H pick a b = H (be32 x ++ be32 y) := by
  unfold hashPair
  by_cases h : pick a b
  · exact ⟨a, b, by simp [h]⟩
  · exact ⟨b, a, by simp [h]⟩

/-- The root of any tree with at least two leaves is the hash of a
64-byte packed pair of digests. -/
theorem buildRoot_shape (H : Bytes → Nat) (pick : Nat → Nat → Bool) :
    ∀ l : List Nat, 2 ≤ l.length → ∃ x y, buildRoot H pick l = H (be32 x ++ be32 y) := by
  intro l
  induction l using buildRoot.induct H pick with
  | case1 => intro h; simp at h
  | case2 a => intro h; simp at h
  | case3 a b rest ih =>
    intro _
    rw [buildRoot]
    rcases rest with _ | ⟨c, rest'⟩
    · simpa [levelUp, buildRoot] using hashPair_shape H pick a b
    · apply ih
      simp only [levelUp_length, List.length_cons]
      omega

/-- One campaign record of `IMerkleDistributorManager` /
`MerkleDistributorManager` (`struct Distribution`). -/
structure Distribution where
  token : Nat
  merkleRoot : Nat
  remainingAmount : Nat
deriving DecidableEq, Repr

/-- The storage of the manager contracts: the next sequential
distribution id, the per-campaign `Distribution` records, and the packed
claim bitmap `claimedBitMap[campaignId][wordIndex]`. -/
structure ManagerState where
  nextDistributionId : Nat
  distributionMap : Nat → Distribution
  claimedBitMap : Nat → Nat → Nat

/-- Freshly deployed manager: all storage zero, `nextDistributionId = 1`. -/
def emptyState : ManagerState :=
  { nextDistributionId := 1
    distributionMap := fun _ => ⟨0, 0, 0⟩
    claimedBitMap := fun _ _ => 0 }

/-- `MerkleDistributorManager.isClaimed`, translated statement by
statement from the source. -/
def isClaimed (s : ManagerState) (campaignId index : Nat) : Bool :=
  let claimedWordIndex := index / 256
  let claimedBitIndex := index % 256
  let claimedWord := s.claimedBitMap campaignId claimedWordIndex
  let mask := 1 <<< claimedBitIndex
  claimedWord &&& mask == mask

/-- `MerkleDistributorManager._setClaimed`: or the mask into the word of
the campaign's bitmap; all other storage is untouched. -/
def setClaimed (s : ManagerState) (campaignId index : Nat) : ManagerState :=
  let claimedWordIndex := index / 256
  let claimedBitIndex := index % 256
  { s with claimedBitMap := fun c w =>
      if c = campaignId ∧ w = claimedWordIndex then
        s.claimedBitMap c w ||| (1 <<< claimedBitIndex)
      else s.claimedBitMap c w }

/-- Solidity 0.7.6 unchecked `uint256` subtraction: for `a < 2^256` this
is `(r - a) mod 2^256`, wrapping below zero. -/
def sub256 (r a : Nat) : Nat := (2 ^ 256 + r - a) % 2 ^ 256

/-- The terminal failures of `claim`.  `tokenReverted` models the case
where the external token call itself reverts, so the revert bubbles up
with the token's own error instead of a require string of this contract. -/
inductive ClaimError
  | alreadyClaimed
  | insufficientToken
  | invalidProof
  | transferFailed
  | tokenReverted
deriving DecidableEq, Repr

/-- The externally visible steps a `claim` execution performs, in
program order. -/
inductive Action
  | setClaimedBit (campaignId index : Nat)
  | tokenTransfer (token recipient amount : Nat)
  | decrementRemaining (campaignId amount : Nat)
  | claimedEvent (campaignId index recipient amount : Nat)
deriving DecidableEq, Repr

/-- Outcome of one straight-line execution of `claim`: on `err` the
carried state and trace are the storage and the actions performed up to
the failing require (the EVM then rolls the storage back, see
`claimTx`). -/
inductive ClaimResult
  | ok (s : ManagerState) (trace : List Action)
  | err (e : ClaimError) (s : ManagerState) (trace : List Action)

def ClaimResult.state : ClaimResult → ManagerState
  | .ok s _ => s
  | .err _ s _ => s

def ClaimResult.trace : ClaimResult → List Action
  | .ok _ t => t
  | .err _ _ t => t

def ClaimResult.error : ClaimResult → Option ClaimError
  | .ok _ _ => none
  | .err e _ _ => some e

def ClaimResult.isOk : ClaimResult → Bool
  | .ok _ _ => true
  | .err _ _ _ => false

theorem ClaimResult.eq_ok_of_isOk {r : ClaimResult} (h : r.isOk = true) :
    r = .ok r.state r.trace := by
  cases r with
  | ok s t => rfl
  | err e s t => simp [ClaimResult.isOk] at h

theorem ClaimResult.eq_err_of_error {r : ClaimResult} {e : ClaimError}
    (h : r.error = some e) : r = .err e r.state r.trace := by
  cases r with
  | ok s t => simp [ClaimResult.error] at h
  | err e' s t =>
    simp only [ClaimResult.error, Option.some.injEq] at h
    simp [h, ClaimResult.state, ClaimResult.trace]

/-- `MerkleDistributorManager.claim` (the address-keyed manager), one
require at a time, in source order.  `H` is `keccak256`, `pick` the
combiner's operand-order convention, `transferResult` the outcome of the
external `IERC20(dist.token).transfer(account, amount)` call. -/
def claim (H : Bytes → Nat) (pick : Nat → Nat → Bool)
    (transferResult : Option Bool) (s : ManagerState)
    (campaignId index account amount : Nat) (merkleProof : List Nat) :
    ClaimResult :=
  if isClaimed s campaignId index then .err .alreadyClaimed s []
  else
    let dist := s.distributionMap campaignId
    if dist.remainingAmount < amount then .err .insufficientToken s []
    else
      let node := H (be32 index ++ be20 account ++ be32 amount)
      if ¬ verify H pick merkleProof dist.merkleRoot node then
        .err .invalidProof s []
      else
        let s₁ := setClaimed s campaignId index
        let pre := [Action.setClaimedBit campaignId index,
                    Action.tokenTransfer dist.token account amount]
        match transferResult with
        | none => .err .tokenReverted s₁ pre
        | some false => .err .transferFailed s₁ pre
        | some true =>
          let s₂ := { s₁ with distributionMap := fun c =>
                        if c = campaignId then
                          { s₁.distributionMap c with
                            remainingAmount :=
                              sub256 (s₁.distributionMap c).remainingAmount amount }
                        else s₁.distributionMap c }
          .ok s₂ (pre ++ [Action.decrementRemaining campaignId amount,
                          Action.claimedEvent campaignId index account amount])

/-- The leaf digest `StringMerkleDistributor.claim` verifies: the raw
string is hashed first, and the 32-byte digest is packed into the leaf
(`hashed = keccak256(abi.encodePacked(target));
node = keccak256(abi.encodePacked(index, hashed, amount))`). -/
def stringDistributorNode (H : Bytes → Nat) (index : Nat) (target : Bytes)
    (amount : Nat) : Nat :=
  H (be32 index ++ be32 (H target) ++ be32 amount)

/-- The leaf digest `StringMerkleDistributorManager.claim` verifies: the
raw string bytes are packed directly
(`node = keccak256(abi.encodePacked(index, target, amount))`). -/
def stringManagerNode (H : Bytes → Nat) (index : Nat) (target : Bytes)
    (amount : Nat) : Nat :=
  H (be32 index ++ target ++ be32 amount)

/-- The string-keyed leaf as the spec defines it (§4.3):
`identifierHash = H(rawString)`; `leaf = H(index, identifierHash, amount)`.
Kept separate from the two source-derived node computations above so that
each variant can be compared against it. -/
def specStringLeaf (H : Bytes → Nat) (index : Nat) (target : Bytes)
    (amount : Nat) : Nat :=
  H (be32 index ++ be32 (H target) ++ be32 amount)

/-- `StringMerkleDistributorManager.claim`, in source order; the token
recipient is `msg.sender`. -/
def stringManagerClaim (H : Bytes → Nat) (pick : Nat → Nat → Bool)
    (transferResult : Option Bool) (s : ManagerState)
    (sender distributionId index : Nat) (target : Bytes) (amount : Nat)
    (merkleProof : List Nat) : ClaimResult :=
  if isClaimed s distributionId index then .err .alreadyClaimed s []
  else
    let dist := s.distributionMap distributionId
    if dist.remainingAmount < amount then .err .insufficientToken s []
    else
      let node := stringManagerNode H index target amount
      if ¬ verify H pick merkleProof dist.merkleRoot node then
        .err .invalidProof s []
      else
        let s₁ := setClaimed s distributionId index
        let pre := [Action.setClaimedBit distributionId index,
                    Action.tokenTransfer dist.token sender amount]
        match transferResult with
        | none => .err .tokenReverted s₁ pre
        | some false => .err .transferFailed s₁ pre
        | some true =>
          let s₂ := { s₁ with distributionMap := fun c =>
                        if c = distributionId then
                          { s₁.distributionMap c with
                            remainingAmount :=
                              sub256 (s₁.distributionMap c).remainingAmount amount }
                        else s₁.distributionMap c }
          .ok s₂ (pre ++ [Action.decrementRemaining distributionId amount,
                          Action.claimedEvent distributionId index sender amount])

/-- The EVM transaction wrapper: a reverted `claim` rolls every storage
write back, so the caller observes the pre-call state together with the
error; a successful `claim` commits the new state. -/
def claimTx (H : Bytes → Nat) (pick : Nat → Nat → Bool)
    (transferResult : Option Bool) (s : ManagerState)
    (campaignId index account amount : Nat) (merkleProof : List Nat) :
    ManagerState × Option ClaimError :=
  match claim H pick transferResult s campaignId index account amount merkleProof with
  | .ok s' _ => (s', none)
  | .err e _ _ => (s, some e)

/-- Transaction wrapper for the string-keyed manager claim. -/
def stringManagerClaimTx (H : Bytes → Nat) (pick : Nat → Nat → Bool)
    (transferResult : Option Bool) (s : ManagerState)
    (sender distributionId index : Nat) (target : Bytes) (amount : Nat)
    (merkleProof : List Nat) : ManagerState × Option ClaimError :=
  match stringManagerClaim H pick transferResult s sender distributionId index
      target amount merkleProof with
  | .ok s' _ => (s', none)
  | .err e _ _ => (s, some e)

/-- Modelled from the spec: `addDistribution` (§4.6; the contract
defining it is not under `src/`).  It pulls `amount` tokens from the
caller — the whole operation aborts if that `transferFrom` fails or
returns false — then stores `{token, root, remainingAmount: amount}`
under the next sequential distribution id and increments the id. -/
def addDistribution (transferFromResult : Option Bool) (s : ManagerState)
    (token merkleRoot amount : Nat) : Option (ManagerState × Nat) :=
  match transferFromResult with
  | some true =>
    let id := s.nextDistributionId
    some ({ nextDistributionId := id + 1
            distributionMap := fun c =>
              if c = id then ⟨token, merkleRoot, amount⟩
              else s.distributionMap c
            claimedBitMap := s.claimedBitMap }, id)
  | _ => none

/-- One external transaction against the manager, with the outcome of its
external token call recorded alongside the call data. -/
inductive Request
  | claimReq (transferResult : Option Bool)
      (campaignId index account amount : Nat) (proof : List Nat)
  | addReq (transferFromResult : Option Bool) (token merkleRoot amount : Nat)

/-- Applying one transaction to the manager state (reverted transactions
leave the state unchanged). -/
def stepRequest (H : Bytes → Nat) (pick : Nat → Nat → Bool)
    (s : ManagerState) : Request → ManagerState
  | .claimReq tres c i a amt p => (claimTx H pick tres s c i a amt p).1
  | .addReq tfres t r amt =>
    match addDistribution tfres s t r amt with
    | some (s', _) => s'
    | none => s

/-- Applying a sequence of transactions in order. -/
def runRequests (H : Bytes → Nat) (pick : Nat → Nat → Bool)
    (s : ManagerState) : List Request → ManagerState
  | [] => s
  | r :: rest => runRequests H pick (stepRequest H pick s r) rest

/-- The bitmap read is exactly a test of bit `index % 256` of word
`index / 256` of the campaign's packed bitmap. -/
theorem isClaimed_eq_testBit (s : ManagerState) (c i : Nat) :
    isClaimed s c i = (s.claimedBitMap c (i / 256)).testBit (i % 256) := by
  show (s.claimedBitMap c (i / 256) &&& 1 <<< (i % 256) == 1 <<< (i % 256)) =
    (s.claimedBitMap c (i / 256)).testBit (i % 256)
  rw [Nat.one_shiftLeft, Nat.and_two_pow]
  rcases h : (s.claimedBitMap c (i / 256)).testBit (i % 256) with _ | _
  · simpa using (Nat.pos_pow_of_pos (i % 256) (by norm_num : 0 < 2)).ne
  · simp

theorem setClaimed_bitMap (s : ManagerState) (c i c' w : Nat) :
    (setClaimed s c i).claimedBitMap c' w =
      if c' = c ∧ w = i / 256 then s.claimedBitMap c' w ||| (1 <<< (i % 256))
      else s.claimedBitMap c' w := rfl

theorem setClaimed_distributionMap (s : ManagerState) (c i : Nat) :
    (setClaimed s c i).distributionMap = s.distributionMap := rfl

theorem setClaimed_nextDistributionId (s : ManagerState) (c i : Nat) :
    (setClaimed s c i).nextDistributionId = s.nextDistributionId := rfl

/-- Setting the bit of `(c, i)` makes `isClaimed c i` true. -/
theorem isClaimed_setClaimed_self (s : ManagerState) (c i : Nat) :
    isClaimed (setClaimed s c i) c i = true := by
  rw [isClaimed_eq_testBit, setClaimed_bitMap]
  simp [Nat.one_shiftLeft, Nat.testBit_lor, Nat.testBit_two_pow_self]

/-- Setting the bit of `(c, i)` changes no other pair's bit. -/
theorem isClaimed_setClaimed_other (s : ManagerState) {c i c' i' : Nat}
    (h : (c', i') ≠ (c, i)) :
    isClaimed (setClaimed s c i) c' i' = isClaimed s c' i' := by
  rw [isClaimed_eq_testBit, isClaimed_eq_testBit, setClaimed_bitMap]
  by_cases hc : c' = c ∧ i' / 256 = i / 256
  · have hbit : i' % 256 ≠ i % 256 := by
      intro hmod
      exact h (by
        have : i' = i := by
          have h₁ := Nat.div_add_mod i' 256
          have h₂ := Nat.div_add_mod i 256
          omega
        simp [hc.1, this])
    simp only [hc, and_self, if_pos, hc.1, hc.2]
    rw [Nat.one_shiftLeft, Nat.testBit_lor,
      Nat.testBit_two_pow_of_ne (fun he => hbit he.symm)]
    simp
  · rw [if_neg (by tauto)]

/-- Bit monotonicity of the raw set operation: an already set pair stays
set. -/
theorem isClaimed_setClaimed_mono (s : ManagerState) {c' i' : Nat} (c i : Nat)
    (h : isClaimed s c' i' = true) :
    isClaimed (setClaimed s c i) c' i' = true := by
  by_cases he : (c', i') = (c, i)
  · rcases Prod.mk.injEq .. ▸ he with ⟨h₁, h₂⟩
    subst h₁; subst h₂
    exact isClaimed_setClaimed_self s c' i'
  · rw [isClaimed_setClaimed_other s he]
    exact h

/-- A sequence of raw `_setClaimed` operations, as pairs
`(campaignId, index)`. -/
def setMany (s : ManagerState) : List (Nat × Nat) → ManagerState
  | [] => s
  | (c, i) :: rest => setMany (setClaimed s c i) rest

theorem isClaimed_setMany (L : List (Nat × Nat)) (s : ManagerState) (c i : Nat) :
    isClaimed (setMany s L) c i = (isClaimed s c i || decide ((c, i) ∈ L)) := by
  induction L generalizing s with
  | nil => simp [setMany]
  | cons p rest ih =>
    rcases p with ⟨c₀, i₀⟩
    rw [setMany, ih]
    by_cases he : (c, i) = (c₀, i₀)
    · rcases Prod.mk.injEq .. ▸ he with ⟨h₁, h₂⟩
      subst h₁; subst h₂
      simp [isClaimed_setClaimed_self]
    · rw [isClaimed_setClaimed_other s he]
      simp [he]

/-- In a fresh deployment no pair is claimed. -/
theorem isClaimed_emptyState (c i : Nat) : isClaimed emptyState c i = false := by
  rw [isClaimed_eq_testBit]
  simp [emptyState]

section ClaimLemmas

variable (H : Bytes → Nat) (pick : Nat → Nat → Bool) (tres : Option Bool)
variable (s : ManagerState) (c i a amt : Nat) (p : List Nat)

/-- The leaf recomputed by the address-keyed manager claim. -/
def claimNode (H : Bytes → Nat) (i a amt : Nat) : Nat :=
  H (be32 i ++ be20 a ++ be32 amt)

theorem claim_already (h : isClaimed s c i = true) :
    claim H pick tres s c i a amt p = .err .alreadyClaimed s [] := by
  unfold claim
  rw [if_pos h]

theorem claim_insufficient (h : isClaimed s c i = false)
    (hr : (s.distributionMap c).remainingAmount < amt) :
    claim H pick tres s c i a amt p = .err .insufficientToken s [] := by
  unfold claim
  rw [if_neg (by simp [h]), if_pos hr]

theorem claim_invalidProof (h : isClaimed s c i = false)
    (hr : ¬ (s.distributionMap c).remainingAmount < amt)
    (hv : verify H pick p (s.distributionMap c).merkleRoot (claimNode H i a amt)
      = false) :
    claim H pick tres s c i a amt p = .err .invalidProof s [] := by
  unfold claim
  rw [if_neg (by simp [h]), if_neg hr, if_pos (by simp [claimNode] at hv ⊢; simp [hv])]

theorem claim_checksPassed (h : isClaimed s c i = false)
    (hr : ¬ (s.distributionMap c).remainingAmount < amt)
    (hv : verify H pick p (s.distributionMap c).merkleRoot (claimNode H i a amt)
      = true) :
    claim H pick tres s c i a amt p =
      let s₁ := setClaimed s c i
      let pre := [Action.setClaimedBit c i,
                  Action.tokenTransfer (s.distributionMap c).token a amt]
      match tres with
      | none => .err .tokenReverted s₁ pre
      | some false => .err .transferFailed s₁ pre
      | some true =>
        .ok { s₁ with distributionMap := fun c' =>
                if c' = c then
                  { s₁.distributionMap c' with
                    remainingAmount :=
                      sub256 (s₁.distributionMap c').remainingAmount amt }
                else s₁.distributionMap c' }
          (pre ++ [Action.decrementRemaining c amt,
                   Action.claimedEvent c i a amt]) := by
  unfold claim
  rw [if_neg (by simp [h]), if_neg hr,
    if_neg (by simp [claimNode] at hv ⊢; simp [hv])]

/-- Inversion: a successful `claim` implies all three checks passed, the
transfer returned true, and pins down the final state and the trace. -/
theorem claim_ok_inv {s' : ManagerState} {tr : List Action}
    (h : claim H pick tres s c i a amt p = .ok s' tr) :
    isClaimed s c i = false ∧
    amt ≤ (s.distributionMap c).remainingAmount ∧
    verify H pick p (s.distributionMap c).merkleRoot (claimNode H i a amt)
      = true ∧
    tres = some true ∧
    s' = { setClaimed s c i with distributionMap := fun c' =>
            if c' = c then
              { s.distributionMap c' with
                remainingAmount :=
                  sub256 (s.distributionMap c').remainingAmount amt }
            else s.distributionMap c' } ∧
    tr = [Action.setClaimedBit c i,
          Action.tokenTransfer (s.distributionMap c).token a amt,
          Action.decrementRemaining c amt,
          Action.claimedEvent c i a amt] := by
  by_cases hc : isClaimed s c i = true
  · rw [claim_already H pick tres s c i a amt p hc] at h
    exact absurd h (by simp)
  · have hc' : isClaimed s c i = false := by simpa using hc
    by_cases hr : (s.distributionMap c).remainingAmount < amt
    · rw [claim_insufficient H pick tres s c i a amt p hc' hr] at h
      exact absurd h (by simp)
    · by_cases hv : verify H pick p (s.distributionMap c).merkleRoot
          (claimNode H i a amt) = true
      · rw [claim_checksPassed H pick tres s c i a amt p hc' hr hv] at h
        rcases tres with _ | b
        · exact absurd h (by simp)
        · rcases b with _ | _
          · exact absurd h (by simp)
          · simp only [ClaimResult.ok.injEq] at h
            refine ⟨hc', by omega, hv, rfl, ?_, h.2.symm⟩
            rw [← h.1]
            rfl
      · have hv' : verify H pick p (s.distributionMap c).merkleRoot
            (claimNode H i a amt) = false := by simpa using hv
        rw [claim_invalidProof H pick tres s c i a amt p hc' hr hv'] at h
        exact absurd h (by simp)

/-- Inversion for failures before the transfer: the carried state is the
entry state and nothing was executed. -/
theorem claim_err_early_inv {e : ClaimError} {s' : ManagerState}
    {tr : List Action}
    (h : claim H pick tres s c i a amt p = .err e s' tr)
    (he : e ≠ .transferFailed ∧ e ≠ .tokenReverted) :
    s' = s ∧ tr = [] := by
  by_cases hc : isClaimed s c i = true
  · rw [claim_already H pick tres s c i a amt p hc] at h
    simp only [ClaimResult.err.injEq] at h
    exact ⟨h.2.1.symm, h.2.2.symm⟩
  · have hc' : isClaimed s c i = false := by simpa using hc
    by_cases hr : (s.distributionMap c).remainingAmount < amt
    · rw [claim_insufficient H pick tres s c i a amt p hc' hr] at h
      simp only [ClaimResult.err.injEq] at h
      exact ⟨h.2.1.symm, h.2.2.symm⟩
    · by_cases hv : verify H pick p (s.distributionMap c).merkleRoot
          (claimNode H i a amt) = true
      · rw [claim_checksPassed H pick tres s c i a amt p hc' hr hv] at h
        rcases tres with _ | b
        · simp only [ClaimResult.err.injEq] at h
          exact absurd h.1.symm he.2
        · rcases b with _ | _
          · simp only [ClaimResult.err.injEq] at h
            exact absurd h.1.symm he.1
          · exact absurd h (by simp)
      · have hv' : verify H pick p (s.distributionMap c).merkleRoot
            (claimNode H i a amt) = false := by simpa using hv
        rw [claim_invalidProof H pick tres s c i a amt p hc' hr hv'] at h
        simp only [ClaimResult.err.injEq] at h
        exact ⟨h.2.1.symm, h.2.2.symm⟩

end ClaimLemmas

section TxLemmas

variable (H : Bytes → Nat) (pick : Nat → Nat → Bool) (tres : Option Bool)
variable (s : ManagerState) (c i a amt : Nat) (p : List Nat)

/-- A claim transaction on campaign `c` leaves every record of any other
campaign untouched, whether the claim succeeds or reverts. -/
theorem claimTx_frame {c' : Nat} (hne : c' ≠ c) :
    (claimTx H pick tres s c i a amt p).1.distributionMap c'
        = s.distributionMap c' ∧
    (∀ w, (claimTx H pick tres s c i a amt p).1.claimedBitMap c' w
        = s.claimedBitMap c' w) := by
  unfold claimTx
  rcases hr : claim H pick tres s c i a amt p with ⟨s', tr⟩ | ⟨e, s', tr⟩
  · rcases claim_ok_inv H pick tres s c i a amt p hr with
      ⟨_, _, _, _, hs', _⟩
    subst hs'
    constructor
    · simp [hne]
    · intro w
      rw [setClaimed_bitMap]
      simp [hne]
  · exact ⟨rfl, fun w => rfl⟩

theorem claimTx_nextId :
    (claimTx H pick tres s c i a amt p).1.nextDistributionId
      = s.nextDistributionId := by
  unfold claimTx
  rcases hr : claim H pick tres s c i a amt p with ⟨s', tr⟩ | ⟨e, s', tr⟩
  · rcases claim_ok_inv H pick tres s c i a amt p hr with
      ⟨_, _, _, _, hs', _⟩
    subst hs'
    rfl
  · rfl

/-- How a claim transaction changes the claimed campaign's remaining
amount: a decrement by the claimed amount on success, nothing on revert. -/
theorem claimTx_remaining :
    ((claimTx H pick tres s c i a amt p).1.distributionMap c).remainingAmount
      = (if (claim H pick tres s c i a amt p).isOk then
          sub256 (s.distributionMap c).remainingAmount amt
        else (s.distributionMap c).remainingAmount) ∧
    ((claim H pick tres s c i a amt p).isOk = true →
      amt ≤ (s.distributionMap c).remainingAmount) := by
  unfold claimTx
  rcases hr : claim H pick tres s c i a amt p with ⟨s', tr⟩ | ⟨e, s', tr⟩
  · rcases claim_ok_inv H pick tres s c i a amt p hr with
      ⟨_, hle, _, _, hs', _⟩
    subst hs'
    exact ⟨by simp [ClaimResult.isOk], fun _ => hle⟩
  · exact ⟨by simp [ClaimResult.isOk], by simp [ClaimResult.isOk]⟩

/-- Claim transactions never clear a claimed bit. -/
theorem claimTx_isClaimed_mono {c' i' : Nat}
    (h : isClaimed s c' i' = true) :
    isClaimed (claimTx H pick tres s c i a amt p).1 c' i' = true := by
  unfold claimTx
  rcases hr : claim H pick tres s c i a amt p with ⟨s', tr⟩ | ⟨e, s', tr⟩
  · rcases claim_ok_inv H pick tres s c i a amt p hr with
      ⟨_, _, _, _, hs', _⟩
    subst hs'
    have : isClaimed (setClaimed s c i) c' i' = true :=
      isClaimed_setClaimed_mono s c i h
    rw [isClaimed_eq_testBit] at this ⊢
    exact this
  · exact h

/-- A successful claim records the pair in the bitmap. -/
theorem claim_ok_isClaimed {s' : ManagerState} {tr : List Action}
    (h : claim H pick tres s c i a amt p = .ok s' tr) :
    isClaimed s' c i = true := by
  rcases claim_ok_inv H pick tres s c i a amt p h with
    ⟨_, _, _, _, hs', _⟩
  subst hs'
  have : isClaimed (setClaimed s c i) c i = true :=
    isClaimed_setClaimed_self s c i
  rw [isClaimed_eq_testBit] at this ⊢
  exact this

/-- `addDistribution` never touches the bitmap and only writes the fresh
campaign record at the previous `nextDistributionId`. -/
theorem addDistribution_inv {tfres : Option Bool} {t r amtA : Nat}
    {s' : ManagerState} {id : Nat}
    (h : addDistribution tfres s t r amtA = some (s', id)) :
    id = s.nextDistributionId ∧
    s'.nextDistributionId = s.nextDistributionId + 1 ∧
    s'.claimedBitMap = s.claimedBitMap ∧
    (∀ c', c' ≠ id → s'.distributionMap c' = s.distributionMap c') ∧
    s'.distributionMap id = ⟨t, r, amtA⟩ := by
  rcases tfres with _ | b
  · exact absurd h (by simp [addDistribution])
  · rcases b with _ | _
    · exact absurd h (by simp [addDistribution])
    · simp only [addDistribution, Option.some.injEq, Prod.mk.injEq] at h
      rcases h with ⟨hs', hid⟩
      subst hs'
      refine ⟨hid.symm, by simp [← hid], rfl, ?_, by simp [← hid]⟩
      intro c' hc'
      show (if c' = s.nextDistributionId then (⟨t, r, amtA⟩ : Distribution)
            else s.distributionMap c') = s.distributionMap c'
      rw [if_neg (by rw [hid]; exact hc')]

/-- Any transaction sequence keeps a claimed bit claimed. -/
theorem runRequests_isClaimed_mono (reqs : List Request) :
    ∀ (s : ManagerState) (c' i' : Nat), isClaimed s c' i' = true →
    isClaimed (runRequests H pick s reqs) c' i' = true := by
  induction reqs with
  | nil => intro s c' i' h; exact h
  | cons r rest ih =>
    intro s c' i' h
    rw [runRequests]
    apply ih
    rcases r with ⟨tres', c₀, i₀, a₀, amt₀, p₀⟩ | ⟨tfres, t₀, r₀, amt₀⟩
    · simpa only [stepRequest] using
        claimTx_isClaimed_mono H pick tres' s c₀ i₀ a₀ amt₀ p₀ h
    · simp only [stepRequest]
      rcases ha : addDistribution tfres s t₀ r₀ amt₀ with _ | ⟨s', id⟩
      · exact h
      · rcases addDistribution_inv s ha with ⟨_, _, hbm, _, _⟩
        rw [isClaimed_eq_testBit, hbm]
        rw [isClaimed_eq_testBit] at h
        exact h

end TxLemmas

/-- Unchecked subtraction is exact on the path where the balance check
passed and the stored balance is a `uint256` value. -/
theorem sub256_exact {r a : Nat} (hle : a ≤ r) (hr : r < 2 ^ 256) :
    sub256 r a = r - a := by
  unfold sub256
  have h : 2 ^ 256 + r - a = 2 ^ 256 + (r - a) := by omega
  rw [h, Nat.add_mod_left]
  exact Nat.mod_eq_of_lt (by omega)

/-- A concrete operand-order convention for the combiner, used only to
evaluate the development on closed inputs. -/
def pickLe (a b : Nat) : Bool := decide (a ≤ b)

/-- Concrete demonstration root: a single-leaf tree whose only leaf is
the claim node of `(index 0, account 9, amount 100)`. -/
def demoRoot : Nat := byteEnc (be32 0 ++ be20 9 ++ be32 100)

/-- Concrete manager state: campaign 1 holds 100 units of token 77 under
`demoRoot`; nothing is claimed. -/
def demoState : ManagerState :=
  { nextDistributionId := 2
    distributionMap := fun c => if c = 1 then ⟨77, demoRoot, 100⟩ else ⟨0, 0, 0⟩
    claimedBitMap := fun _ _ => 0 }

/-- C1.  For every campaign id `c` and index `i`, after a `claim(c, i, …)`
call that succeeds, every subsequent claim for the same `(c, i)` — for
any account, amount, proof, token outcome, and after any further
sequence of transactions — fails with `AlreadyClaimed` and changes no
state (the straight-line execution stops at the first require, having
performed no action, and the transaction returns the state unchanged). -/
theorem C1_at_most_once (H : Bytes → Nat) (pick : Nat → Nat → Bool)
    (tres : Option Bool) (s : ManagerState) (c i a amt : Nat) (p : List Nat)
    (s₁ : ManagerState) (tr : List Action)
    (h : claim H pick tres s c i a amt p = .ok s₁ tr)
    (reqs : List Request) (tres₂ : Option Bool) (a₂ amt₂ : Nat)
    (p₂ : List Nat) :
    claim H pick tres₂ (runRequests H pick s₁ reqs) c i a₂ amt₂ p₂ =
      .err .alreadyClaimed (runRequests H pick s₁ reqs) [] ∧
    claimTx H pick tres₂ (runRequests H pick s₁ reqs) c i a₂ amt₂ p₂ =
      (runRequests H pick s₁ reqs, some .alreadyClaimed) := by
  have h₁ : isClaimed s₁ c i = true :=
    claim_ok_isClaimed H pick tres s c i a amt p h
  have h₂ : isClaimed (runRequests H pick s₁ reqs) c i = true :=
    runRequests_isClaimed_mono H pick reqs s₁ c i h₁
  refine ⟨claim_already H pick tres₂ _ c i a₂ amt₂ p₂ h₂, ?_⟩
  unfold claimTx
  rw [claim_already H pick tres₂ _ c i a₂ amt₂ p₂ h₂]

/-- C1 witness: after the successful demonstration claim on `(1, 0)`, a
second claim on `(1, 0)` with different account, amount and proof
reports `AlreadyClaimed`. -/
theorem C1_witness :
    (claim byteEnc pickLe (some false)
        (claim byteEnc pickLe (some true) demoState 1 0 9 100 []).state
        1 0 8 55 [3]).error = some .alreadyClaimed := by
  have hok : (claim byteEnc pickLe (some true) demoState 1 0 9 100 []).isOk
      = true := by decide
  have h := C1_at_most_once byteEnc pickLe (some true) demoState 1 0 9 100 []
    (claim byteEnc pickLe (some true) demoState 1 0 9 100 []).state
    (claim byteEnc pickLe (some true) demoState 1 0 9 100 []).trace
    (ClaimResult.eq_ok_of_isOk hok) [] (some false) 8 55 [3]
  have h₂ := congrArg ClaimResult.error h.1
  simpa [ClaimResult.error] using h₂

/-- C3.  `claim` checks its three requires in source order — the bitmap,
then the balance, then the Merkle proof — surfacing `AlreadyClaimed`,
`InsufficientToken` and `InvalidProof` respectively, and a failure of any
of the three happens before any state mutation or external call: the
straight-line execution carries the untouched entry state and an empty
action trace. -/
theorem C3_check_order (H : Bytes → Nat) (pick : Nat → Nat → Bool)
    (tres : Option Bool) (s : ManagerState) (c i a amt : Nat)
    (p : List Nat) :
    ((claim H pick tres s c i a amt p).error = some .alreadyClaimed ↔
      isClaimed s c i = true) ∧
    (isClaimed s c i = false →
      ((claim H pick tres s c i a amt p).error = some .insufficientToken ↔
        (s.distributionMap c).remainingAmount < amt)) ∧
    (isClaimed s c i = false → amt ≤ (s.distributionMap c).remainingAmount →
      ((claim H pick tres s c i a amt p).error = some .invalidProof ↔
        verify H pick p (s.distributionMap c).merkleRoot
          (claimNode H i a amt) = false)) ∧
    (∀ e, (claim H pick tres s c i a amt p).error = some e →
      e ≠ .transferFailed → e ≠ .tokenReverted →
      (claim H pick tres s c i a amt p).state = s ∧
      (claim H pick tres s c i a amt p).trace = []) := by
  refine ⟨?_, ?_, ?_, ?_⟩
  · constructor
    · intro he
      by_contra hc
      have hc' : isClaimed s c i = false := by simpa using hc
      by_cases hr : (s.distributionMap c).remainingAmount < amt
      · rw [claim_insufficient H pick tres s c i a amt p hc' hr] at he
        simp [ClaimResult.error] at he
      · by_cases hv : verify H pick p (s.distributionMap c).merkleRoot
            (claimNode H i a amt) = true
        · rw [claim_checksPassed H pick tres s c i a amt p hc' hr hv] at he
          rcases tres with _ | b
          · simp [ClaimResult.error] at he
          · rcases b with _ | _ <;> simp [ClaimResult.error] at he
        · rw [claim_invalidProof H pick tres s c i a amt p hc' hr
            (by simpa using hv)] at he
          simp [ClaimResult.error] at he
    · intro hc
      rw [claim_already H pick tres s c i a amt p hc]
      rfl
  · intro hc
    constructor
    · intro he
      by_contra hr
      by_cases hv : verify H pick p (s.distributionMap c).merkleRoot
          (claimNode H i a amt) = true
      · rw [claim_checksPassed H pick tres s c i a amt p hc hr hv] at he
        rcases tres with _ | b
        · simp [ClaimResult.error] at he
        · rcases b with _ | _ <;> simp [ClaimResult.error] at he
      · rw [claim_invalidProof H pick tres s c i a amt p hc hr
          (by simpa using hv)] at he
        simp [ClaimResult.error] at he
    · intro hr
      rw [claim_insufficient H pick tres s c i a amt p hc hr]
      rfl
  · intro hc hle
    have hr : ¬ (s.distributionMap c).remainingAmount < amt := by omega
    constructor
    · intro he
      by_contra hv
      have hv' : verify H pick p (s.distributionMap c).merkleRoot
          (claimNode H i a amt) = true := by simpa using hv
      rw [claim_checksPassed H pick tres s c i a amt p hc hr hv'] at he
      rcases tres with _ | b
      · simp [ClaimResult.error] at he
      · rcases b with _ | _ <;> simp [ClaimResult.error] at he
    · intro hv
      rw [claim_invalidProof H pick tres s c i a amt p hc hr hv]
      rfl
  · intro e he hne₁ hne₂
    have her : claim H pick tres s c i a amt p =
        .err e (claim H pick tres s c i a amt p).state
          (claim H pick tres s c i a amt p).trace :=
      ClaimResult.eq_err_of_error he
    rcases claim_err_early_inv H pick tres s c i a amt p her ⟨hne₁, hne₂⟩ with
      ⟨hs, ht⟩
    exact ⟨hs, ht⟩

/-- C3 witness: on the demonstration state, a claim of more than the
campaign balance by an unclaimed index reports `InsufficientToken`, and
the failed execution carries the entry state and the empty trace. -/
theorem C3_witness :
    (claim byteEnc pickLe (some true) demoState 1 3 9 101 []).error
      = some .insufficientToken ∧
    (claim byteEnc pickLe (some true) demoState 1 3 9 101 []).trace = [] := by
  have h := C3_check_order byteEnc pickLe (some true) demoState 1 3 9 101 []
  have he : (claim byteEnc pickLe (some true) demoState 1 3 9 101 []).error
      = some .insufficientToken :=
    (h.2.1 (by decide)).mpr (by decide)
  exact ⟨he, (h.2.2.2 _ he (by decide) (by decide)).2⟩

/-- C10.  Whenever the manager claim reaches the balance update, the
require established `amount ≤ remainingAmount`, so the unchecked 256-bit
subtraction is exact and never wraps: the new balance plus the claimed
amount reproduces the old balance. -/
theorem C10_no_underflow (H : Bytes → Nat) (pick : Nat → Nat → Bool)
    (tres : Option Bool) (s : ManagerState) (c i a amt : Nat) (p : List Nat)
    (s' : ManagerState) (tr : List Action)
    (h : claim H pick tres s c i a amt p = .ok s' tr)
    (hbound : (s.distributionMap c).remainingAmount < 2 ^ 256) :
    amt ≤ (s.distributionMap c).remainingAmount ∧
    (s'.distributionMap c).remainingAmount
      = (s.distributionMap c).remainingAmount - amt ∧
    (s'.distributionMap c).remainingAmount + amt
      = (s.distributionMap c).remainingAmount := by
  rcases claim_ok_inv H pick tres s c i a amt p h with
    ⟨_, hle, _, _, hs', _⟩
  subst hs'
  have hrem : sub256 (s.distributionMap c).remainingAmount amt
      = (s.distributionMap c).remainingAmount - amt :=
    sub256_exact hle hbound
  refine ⟨hle, ?_, ?_⟩
  · simp [hrem]
  · simp [hrem]
    omega

/-- C10 witness: the demonstration claim of 100 out of 100 leaves a
remaining amount of 0, with no wrap-around. -/
theorem C10_witness :
    100 ≤ (demoState.distributionMap 1).remainingAmount ∧
    (((claim byteEnc pickLe (some true) demoState 1 0 9 100 []).state
        ).distributionMap 1).remainingAmount + 100
      = (demoState.distributionMap 1).remainingAmount := by
  have hok : (claim byteEnc pickLe (some true) demoState 1 0 9 100 []).isOk
      = true := by decide
  have h := C10_no_underflow byteEnc pickLe (some true) demoState 1 0 9 100 []
    (claim byteEnc pickLe (some true) demoState 1 0 9 100 []).state
    (claim byteEnc pickLe (some true) demoState 1 0 9 100 []).trace
    (ClaimResult.eq_ok_of_isOk hok) (by decide)
  exact ⟨h.1, h.2.2⟩

theorem sub256_le {r a : Nat} (h : a ≤ r) : sub256 r a ≤ r := by
  by_cases hr : r < 2 ^ 256
  · rw [sub256_exact h hr]; omega
  · unfold sub256
    have hm := Nat.mod_lt (2 ^ 256 + r - a) (show 0 < 2 ^ 256 by positivity)
    omega

/-- A claim that asks for more than the campaign's remaining amount never
succeeds (it stops at the bitmap require or the balance require). -/
theorem claim_fails_of_insufficient (H : Bytes → Nat)
    (pick : Nat → Nat → Bool) (tres : Option Bool) (s : ManagerState)
    (c i a amt : Nat) (p : List Nat)
    (h : (s.distributionMap c).remainingAmount < amt) :
    (claim H pick tres s c i a amt p).isOk = false := by
  by_cases hc : isClaimed s c i = true
  · rw [claim_already H pick tres s c i a amt p hc]; rfl
  · rw [claim_insufficient H pick tres s c i a amt p (by simpa using hc) h]
    rfl

/-- Total amount paid out to campaign `c` by the successful claims of a
transaction sequence, accumulated along the execution. -/
def claimedSum (H : Bytes → Nat) (pick : Nat → Nat → Bool) (c : Nat) :
    ManagerState → List Request → Nat
  | _, [] => 0
  | s, .claimReq tres c' i a amt p :: rest =>
    (if c' = c ∧ (claim H pick tres s c' i a amt p).isOk then amt else 0)
    + claimedSum H pick c
        (stepRequest H pick s (.claimReq tres c' i a amt p)) rest
  | s, .addReq tf t r amt :: rest =>
    claimedSum H pick c (stepRequest H pick s (.addReq tf t r amt)) rest

/-- Accounting invariant: starting from any state where campaign `c` is
already allocated (its id below the id counter) and its balance is a
`uint256` value, any transaction sequence pays out at most the balance,
leaves exactly the balance minus the payout, and keeps `c` allocated. -/
theorem runRequests_remaining (H : Bytes → Nat) (pick : Nat → Nat → Bool)
    (c : Nat) (reqs : List Request) :
    ∀ s : ManagerState, c < s.nextDistributionId →
    (s.distributionMap c).remainingAmount < 2 ^ 256 →
    claimedSum H pick c s reqs ≤ (s.distributionMap c).remainingAmount ∧
    ((runRequests H pick s reqs).distributionMap c).remainingAmount
      = (s.distributionMap c).remainingAmount - claimedSum H pick c s reqs ∧
    c < (runRequests H pick s reqs).nextDistributionId := by
  induction reqs with
  | nil =>
    intro s hc hb
    exact ⟨Nat.zero_le _, by simp [runRequests, claimedSum], hc⟩
  | cons r rest ih =>
    intro s hc hb
    rw [runRequests]
    rcases r with ⟨tres, c₀, i₀, a₀, amt₀, p₀⟩ | ⟨tfres, t₀, r₀, amt₀⟩
    · have hstep : stepRequest H pick s (.claimReq tres c₀ i₀ a₀ amt₀ p₀)
          = (claimTx H pick tres s c₀ i₀ a₀ amt₀ p₀).1 := rfl
      have hnext := claimTx_nextId H pick tres s c₀ i₀ a₀ amt₀ p₀
      by_cases he : c₀ = c
      · subst he
        rcases claimTx_remaining H pick tres s c₀ i₀ a₀ amt₀ p₀ with
          ⟨hrem, hok⟩
        by_cases hisok : (claim H pick tres s c₀ i₀ a₀ amt₀ p₀).isOk = true
        · have hle := hok hisok
          have hsub : sub256 (s.distributionMap c₀).remainingAmount amt₀
              = (s.distributionMap c₀).remainingAmount - amt₀ :=
            sub256_exact hle hb
          have hrem' : (((claimTx H pick tres s c₀ i₀ a₀ amt₀ p₀).1
              ).distributionMap c₀).remainingAmount
              = (s.distributionMap c₀).remainingAmount - amt₀ := by
            rw [hrem, if_pos hisok, hsub]
          have ihr := ih (claimTx H pick tres s c₀ i₀ a₀ amt₀ p₀).1
            (by rw [hnext]; exact hc) (by rw [hrem']; omega)
          rw [claimedSum, if_pos ⟨rfl, hisok⟩, hstep]
          rw [hrem'] at ihr
          exact ⟨by omega, by omega, ihr.2.2⟩
        · have hrem' : (((claimTx H pick tres s c₀ i₀ a₀ amt₀ p₀).1
              ).distributionMap c₀).remainingAmount
              = (s.distributionMap c₀).remainingAmount := by
            rw [hrem, if_neg hisok]
          have ihr := ih (claimTx H pick tres s c₀ i₀ a₀ amt₀ p₀).1
            (by rw [hnext]; exact hc) (by rw [hrem']; exact hb)
          rw [claimedSum, if_neg (fun hcon => hisok hcon.2), hstep]
          rw [hrem'] at ihr
          exact ⟨by omega, by omega, ihr.2.2⟩
      · have hfr := (claimTx_frame H pick tres s c₀ i₀ a₀ amt₀ p₀
          (fun hcc => he hcc.symm)).1
        have ihr := ih (claimTx H pick tres s c₀ i₀ a₀ amt₀ p₀).1
          (by rw [hnext]; exact hc) (by rw [hfr]; exact hb)
        rw [claimedSum, if_neg (fun hcon => he hcon.1), hstep]
        rw [hfr] at ihr
        exact ⟨by omega, by omega, ihr.2.2⟩
    · rw [claimedSum]
      have hstep : stepRequest H pick s (.addReq tfres t₀ r₀ amt₀)
          = match addDistribution tfres s t₀ r₀ amt₀ with
            | some (s', _) => s'
            | none => s := rfl
      rcases ha : addDistribution tfres s t₀ r₀ amt₀ with _ | ⟨s', id⟩
      · have hs : stepRequest H pick s (.addReq tfres t₀ r₀ amt₀) = s := by
          rw [hstep, ha]
        rw [hs]
        exact ih s hc hb
      · rcases addDistribution_inv s ha with ⟨hid, hnext, _, hother, _⟩
        have hs : stepRequest H pick s (.addReq tfres t₀ r₀ amt₀) = s' := by
          rw [hstep, ha]
        rw [hs]
        have hcid : c ≠ id := by omega
        have hdm := hother c hcid
        have ihr := ih s' (by omega) (by rw [hdm]; exact hb)
        rw [hdm] at ihr
        exact ihr

/-- One transaction never increases the remaining amount of an already
allocated campaign. -/
theorem stepRequest_remaining_le (H : Bytes → Nat) (pick : Nat → Nat → Bool)
    (s : ManagerState) (c : Nat) (hc : c < s.nextDistributionId)
    (req : Request) :
    ((stepRequest H pick s req).distributionMap c).remainingAmount
      ≤ (s.distributionMap c).remainingAmount := by
  rcases req with ⟨tres, c₀, i₀, a₀, amt₀, p₀⟩ | ⟨tf, t₀, r₀, amt₀⟩
  · show (((claimTx H pick tres s c₀ i₀ a₀ amt₀ p₀).1
      ).distributionMap c).remainingAmount ≤ _
    by_cases he : c₀ = c
    · subst he
      rcases claimTx_remaining H pick tres s c₀ i₀ a₀ amt₀ p₀ with ⟨hrem, hok⟩
      by_cases hisok : (claim H pick tres s c₀ i₀ a₀ amt₀ p₀).isOk = true
      · rw [hrem, if_pos hisok]
        exact sub256_le (hok hisok)
      · rw [hrem, if_neg hisok]
    · rw [(claimTx_frame H pick tres s c₀ i₀ a₀ amt₀ p₀
        (fun hcc => he hcc.symm)).1]
  · simp only [stepRequest]
    rcases ha : addDistribution tf s t₀ r₀ amt₀ with _ | ⟨s', id⟩
    · exact Nat.le_refl _
    · rcases addDistribution_inv s ha with ⟨hid, _, _, hother, _⟩
      rw [hother c (by omega)]

/-- C4.  A campaign created by `addDistribution` with deposit `A` obeys
balance conservation: along any later transaction sequence the total
amount paid out by its successful claims never exceeds `A`, the campaign's
`remainingAmount` equals `A` minus that total, a further transaction can
only decrease it, and a claim asking for more than the current remaining
amount always fails. -/
theorem C4_balance_conservation (H : Bytes → Nat) (pick : Nat → Nat → Bool)
    (tfres : Option Bool) (s : ManagerState) (t r A : Nat)
    (s' : ManagerState) (id : Nat)
    (hadd : addDistribution tfres s t r A = some (s', id))
    (hA : A < 2 ^ 256) (reqs : List Request) :
    claimedSum H pick id s' reqs ≤ A ∧
    ((runRequests H pick s' reqs).distributionMap id).remainingAmount
      = A - claimedSum H pick id s' reqs ∧
    (∀ req : Request,
      ((stepRequest H pick (runRequests H pick s' reqs) req
        ).distributionMap id).remainingAmount
      ≤ ((runRequests H pick s' reqs).distributionMap id).remainingAmount) ∧
    (∀ (tres : Option Bool) (i a amt : Nat) (p : List Nat),
      ((runRequests H pick s' reqs).distributionMap id).remainingAmount < amt →
      (claim H pick tres (runRequests H pick s' reqs) id i a amt p).isOk
        = false) := by
  rcases addDistribution_inv s hadd with ⟨hid, hnext, _, _, hrec⟩
  have hcid : id < s'.nextDistributionId := by omega
  have hrem0 : (s'.distributionMap id).remainingAmount = A := by rw [hrec]
  have hmain := runRequests_remaining H pick id reqs s' hcid
    (by rw [hrem0]; exact hA)
  rw [hrem0] at hmain
  refine ⟨hmain.1, hmain.2.1, ?_, ?_⟩
  · intro req
    exact stepRequest_remaining_le H pick _ id hmain.2.2 req
  · intro tres i a amt p hlt
    exact claim_fails_of_insufficient H pick tres _ id i a amt p hlt

/-- C4 witness: depositing 100 into a fresh campaign and then claiming
100 via the demonstration leaf pays out exactly 100 and leaves 0. -/
theorem C4_witness :
    claimedSum byteEnc pickLe 1 demoState
        [.claimReq (some true) 1 0 9 100 []] ≤ 100 ∧
    ((runRequests byteEnc pickLe demoState
        [.claimReq (some true) 1 0 9 100 []]).distributionMap 1
      ).remainingAmount
      = 100 - claimedSum byteEnc pickLe 1 demoState
          [.claimReq (some true) 1 0 9 100 []] := by
  have h := C4_balance_conservation byteEnc pickLe (some true) emptyState 77
    demoRoot 100 demoState 1 rfl (by norm_num)
    [.claimReq (some true) 1 0 9 100 []]
  exact ⟨h.1, h.2.1⟩

/-- C7.  A claim transaction on campaign `c` — successful or not — leaves
every other campaign's record and bitmap words unchanged; and the outcome
of a claim on campaign `c` depends only on campaign `c`'s own record and
bitmap, so exhausting or mutating one campaign cannot affect an
otherwise-valid claim against another. -/
theorem C7_cross_campaign_isolation (H : Bytes → Nat)
    (pick : Nat → Nat → Bool) (tres : Option Bool) (s : ManagerState)
    (c i a amt : Nat) (p : List Nat) :
    (∀ c', c' ≠ c →
      (claimTx H pick tres s c i a amt p).1.distributionMap c'
        = s.distributionMap c' ∧
      ∀ w, (claimTx H pick tres s c i a amt p).1.claimedBitMap c' w
        = s.claimedBitMap c' w) ∧
    (∀ s₂ : ManagerState,
      s₂.distributionMap c = s.distributionMap c →
      (∀ w, s₂.claimedBitMap c w = s.claimedBitMap c w) →
      (claim H pick tres s₂ c i a amt p).error
        = (claim H pick tres s c i a amt p).error) := by
  constructor
  · intro c' hc'
    exact claimTx_frame H pick tres s c i a amt p hc'
  · intro s₂ hd hbm
    have hic : isClaimed s₂ c i = isClaimed s c i := by
      rw [isClaimed_eq_testBit, isClaimed_eq_testBit, hbm]
    by_cases h₁ : isClaimed s c i = true
    · rw [claim_already H pick tres s c i a amt p h₁,
        claim_already H pick tres s₂ c i a amt p (hic.trans h₁)]
      rfl
    · have h₁' : isClaimed s c i = false := by simpa using h₁
      have h₁₂ : isClaimed s₂ c i = false := hic.trans h₁'
      by_cases h₂ : (s.distributionMap c).remainingAmount < amt
      · rw [claim_insufficient H pick tres s c i a amt p h₁' h₂,
          claim_insufficient H pick tres s₂ c i a amt p h₁₂
            (by rw [hd]; exact h₂)]
        rfl
      · by_cases h₃ : verify H pick p (s.distributionMap c).merkleRoot
            (claimNode H i a amt) = true
        · rw [claim_checksPassed H pick tres s c i a amt p h₁' h₂ h₃,
            claim_checksPassed H pick tres s₂ c i a amt p h₁₂
              (by rw [hd]; exact h₂) (by rw [hd]; exact h₃)]
          rcases tres with _ | b
          · rfl
          · rcases b with _ | _ <;> rfl
        · have h₃' : verify H pick p (s.distributionMap c).merkleRoot
              (claimNode H i a amt) = false := by simpa using h₃
          rw [claim_invalidProof H pick tres s c i a amt p h₁' h₂ h₃',
            claim_invalidProof H pick tres s₂ c i a amt p h₁₂
              (by rw [hd]; exact h₂) (by rw [hd]; exact h₃')]
          rfl

/-- C7 witness: the successful demonstration claim on campaign 1 leaves
campaign 2's record and bitmap word 0 unchanged. -/
theorem C7_witness :
    (claimTx byteEnc pickLe (some true) demoState 1 0 9 100 []
      ).1.distributionMap 2 = demoState.distributionMap 2 ∧
    (claimTx byteEnc pickLe (some true) demoState 1 0 9 100 []
      ).1.claimedBitMap 2 0 = demoState.claimedBitMap 2 0 := by
  have h := (C7_cross_campaign_isolation byteEnc pickLe (some true) demoState
    1 0 9 100 []).1 2 (by decide)
  exact ⟨h.1, h.2 0⟩

def Action.isSetBit : Action → Bool
  | .setClaimedBit _ _ => true
  | _ => false

def Action.isTransfer : Action → Bool
  | .tokenTransfer _ _ _ => true
  | _ => false

def Action.isDecrement : Action → Bool
  | .decrementRemaining _ _ => true
  | _ => false

/-- `occursBefore p q tr` holds when some action satisfying `p` occurs
strictly before some action satisfying `q` in the trace. -/
def occursBefore (p q : Action → Bool) : List Action → Bool
  | [] => false
  | x :: rest => (p x && rest.any q) || occursBefore p q rest

/-- C5 counterexample: the demonstration claim succeeds and its trace
contains the token transfer, but no decrement of the remaining amount
occurs before the transfer — the decrement is performed after the
transfer call, contradicting the claim that both mutations precede it. -/
theorem C5_counterexample :
    (claim byteEnc pickLe (some true) demoState 1 0 9 100 []).isOk = true ∧
    (claim byteEnc pickLe (some true) demoState 1 0 9 100 []).trace.any
      Action.isTransfer = true ∧
    occursBefore Action.isDecrement Action.isTransfer
      (claim byteEnc pickLe (some true) demoState 1 0 9 100 []).trace
      = false := by
  refine ⟨by decide, by decide, by decide⟩

/-- C5 (amended).  In every successful manager claim the bitmap bit is
set strictly before the external token transfer is invoked, while
`remainingAmount` is decremented strictly after the transfer call —
still inside the same atomic transaction, before the event emission:
the trace is exactly set-bit, transfer, decrement, event. -/
theorem C5_mutation_order (H : Bytes → Nat) (pick : Nat → Nat → Bool)
    (tres : Option Bool) (s : ManagerState) (c i a amt : Nat) (p : List Nat)
    (s' : ManagerState) (tr : List Action)
    (h : claim H pick tres s c i a amt p = .ok s' tr) :
    tr = [Action.setClaimedBit c i,
          Action.tokenTransfer (s.distributionMap c).token a amt,
          Action.decrementRemaining c amt,
          Action.claimedEvent c i a amt] ∧
    occursBefore Action.isSetBit Action.isTransfer tr = true ∧
    occursBefore Action.isTransfer Action.isDecrement tr = true := by
  rcases claim_ok_inv H pick tres s c i a amt p h with ⟨_, _, _, _, _, htr⟩
  subst htr
  exact ⟨rfl, rfl, rfl⟩

/-- C5 witness: in the demonstration claim the bit is set before the
transfer and the transfer precedes the decrement. -/
theorem C5_witness :
    occursBefore Action.isSetBit Action.isTransfer
      (claim byteEnc pickLe (some true) demoState 1 0 9 100 []).trace
      = true ∧
    occursBefore Action.isTransfer Action.isDecrement
      (claim byteEnc pickLe (some true) demoState 1 0 9 100 []).trace
      = true := by
  have hok : (claim byteEnc pickLe (some true) demoState 1 0 9 100 []).isOk
      = true := by decide
  have h := C5_mutation_order byteEnc pickLe (some true) demoState 1 0 9 100 []
    (claim byteEnc pickLe (some true) demoState 1 0 9 100 []).state
    (claim byteEnc pickLe (some true) demoState 1 0 9 100 []).trace
    (ClaimResult.eq_ok_of_isOk hok)
  exact ⟨h.2.1, h.2.2⟩

theorem stringManagerClaim_checksPassed (H : Bytes → Nat)
    (pick : Nat → Nat → Bool) (tres : Option Bool) (s : ManagerState)
    (sender c i : Nat) (target : Bytes) (amt : Nat) (p : List Nat)
    (h : isClaimed s c i = false)
    (hr : ¬ (s.distributionMap c).remainingAmount < amt)
    (hv : verify H pick p (s.distributionMap c).merkleRoot
      (stringManagerNode H i target amt) = true) :
    stringManagerClaim H pick tres s sender c i target amt p =
      let s₁ := setClaimed s c i
      let pre := [Action.setClaimedBit c i,
                  Action.tokenTransfer (s.distributionMap c).token sender amt]
      match tres with
      | none => .err .tokenReverted s₁ pre
      | some false => .err .transferFailed s₁ pre
      | some true =>
        .ok { s₁ with distributionMap := fun c' =>
                if c' = c then
                  { s₁.distributionMap c' with
                    remainingAmount :=
                      sub256 (s₁.distributionMap c').remainingAmount amt }
                else s₁.distributionMap c' }
          (pre ++ [Action.decrementRemaining c amt,
                   Action.claimedEvent c i sender amt]) := by
  unfold stringManagerClaim
  rw [if_neg (by simp [h]), if_neg hr, if_neg (by simp [hv])]

/-- C6 (amended).  Once the three checks of the string-keyed manager
claim pass, the claim fails with `TransferFailed` exactly when the token
transfer returns the boolean `false`; a transfer that reverts also makes
the claim fail, but by bubbling the token's own revert rather than the
`TransferFailed` require string.  In every failing case the transaction
leaves the state unchanged: the bitmap bit stays unset and
`remainingAmount` keeps its prior value. -/
theorem C6_transfer_failure (H : Bytes → Nat) (pick : Nat → Nat → Bool)
    (s : ManagerState) (sender c i : Nat) (target : Bytes) (amt : Nat)
    (p : List Nat)
    (hc : isClaimed s c i = false)
    (hr : amt ≤ (s.distributionMap c).remainingAmount)
    (hv : verify H pick p (s.distributionMap c).merkleRoot
      (stringManagerNode H i target amt) = true) :
    (∀ tres : Option Bool,
      ((stringManagerClaim H pick tres s sender c i target amt p).error
        = some .transferFailed ↔ tres = some false)) ∧
    ((stringManagerClaim H pick none s sender c i target amt p).error
      = some .tokenReverted) ∧
    (∀ (tres : Option Bool) (e : ClaimError),
      (stringManagerClaimTx H pick tres s sender c i target amt p).2
        = some e →
      (stringManagerClaimTx H pick tres s sender c i target amt p).1 = s) := by
  have hr' : ¬ (s.distributionMap c).remainingAmount < amt := by omega
  refine ⟨?_, ?_, ?_⟩
  · intro tres
    rw [stringManagerClaim_checksPassed H pick tres s sender c i target amt p
      hc hr' hv]
    rcases tres with _ | b
    · simp [ClaimResult.error]
    · rcases b with _ | _ <;> simp [ClaimResult.error]
  · rw [stringManagerClaim_checksPassed H pick none s sender c i target amt p
      hc hr' hv]
    rfl
  · intro tres e he
    unfold stringManagerClaimTx at he ⊢
    rcases hres : stringManagerClaim H pick tres s sender c i target amt p with
      ⟨s', tr⟩ | ⟨e', s', tr⟩
    · rw [hres] at he
      simp at he
    · rfl

/-- Concrete single-leaf string root: the leaf packs the raw byte `[97]`
directly, as `StringMerkleDistributorManager.claim` computes it. -/
def demoStringRoot : Nat := stringManagerNode byteEnc 0 [97] 100

/-- Concrete manager state for the string-keyed variant: campaign 1
holds 100 units of token 77 under `demoStringRoot`. -/
def demoStringState : ManagerState :=
  { nextDistributionId := 2
    distributionMap := fun c =>
      if c = 1 then ⟨77, demoStringRoot, 100⟩ else ⟨0, 0, 0⟩
    claimedBitMap := fun _ _ => 0 }

/-- C6 counterexample: on an otherwise valid claim whose token transfer
reverts, the claim fails — but with the bubbled token revert, not with
the `TransferFailed` require string, refuting "fails with TransferFailed
exactly when the transfer reverts or returns false". -/
theorem C6_counterexample :
    (stringManagerClaim byteEnc pickLe none demoStringState 9 1 0 [97] 100 []
      ).error = some .tokenReverted ∧
    (stringManagerClaim byteEnc pickLe none demoStringState 9 1 0 [97] 100 []
      ).error ≠ some .transferFailed ∧
    (stringManagerClaimTx byteEnc pickLe none demoStringState 9 1 0 [97] 100 []
      ).2.isSome = true := by
  refine ⟨by decide, by decide, by decide⟩

/-- C6 witness: with a token that returns `false`, the claim reports
`TransferFailed`; with a reverting token it reports the bubbled revert;
both via the amended theorem at the concrete demonstration input. -/
theorem C6_witness :
    (stringManagerClaim byteEnc pickLe (some false) demoStringState 9 1 0 [97]
      100 []).error = some .transferFailed ∧
    (stringManagerClaim byteEnc pickLe none demoStringState 9 1 0 [97]
      100 []).error = some .tokenReverted ∧
    (stringManagerClaimTx byteEnc pickLe (some false) demoStringState 9 1 0
      [97] 100 []).1 = demoStringState := by
  have h := C6_transfer_failure byteEnc pickLe demoStringState 9 1 0 [97] 100
    [] (by decide) (by decide) (by decide)
  refine ⟨(h.1 (some false)).mpr rfl, h.2.1, ?_⟩
  apply h.2.2 (some false) .transferFailed
  unfold stringManagerClaimTx
  rw [ClaimResult.eq_err_of_error ((h.1 (some false)).mpr rfl)]

/-- C2.  Leaf encoding of the string-keyed variants against the spec's
`H(index, H(rawString), amount)`: `StringMerkleDistributor.claim`
computes exactly that digest, but `StringMerkleDistributorManager.claim`
packs the raw string bytes directly into the leaf preimage, so for every
collision-free hash and every identifier whose byte length is not 32 the
two digests differ — the manager does not implement the specified (and
tested) encoding. -/
theorem C2_leaf_encoding (H : Bytes → Nat) :
    (∀ (i amt : Nat) (target : Bytes),
      stringDistributorNode H i target amt = specStringLeaf H i target amt) ∧
    (BytesInjective H → ∀ (i amt : Nat) (target : Bytes), AllBytes target →
      target.length ≠ 32 →
      stringManagerNode H i target amt ≠ specStringLeaf H i target amt) := by
  constructor
  · intro i amt target
    rfl
  · intro hinj i amt target hbytes hlen heq
    have hb₁ : AllBytes (be32 i ++ target ++ be32 amt) :=
      allBytes_append (allBytes_append (beBytes_allBytes 32 i) hbytes)
        (beBytes_allBytes 32 amt)
    have hb₂ : AllBytes (be32 i ++ be32 (H target) ++ be32 amt) :=
      allBytes_append (allBytes_append (beBytes_allBytes 32 i)
        (beBytes_allBytes 32 (H target))) (beBytes_allBytes 32 amt)
    have hlists : be32 i ++ target ++ be32 amt
        = be32 i ++ be32 (H target) ++ be32 amt := hinj _ _ hb₁ hb₂ heq
    have hlength := congrArg List.length hlists
    simp only [List.length_append, beBytes_length, be32] at hlength
    omega

/-- The raw UTF-8 bytes of the UUID
"42330217-bdab-440d-9500-2bb253ce547f" used by the repository's own
`StringMerkleDistributorManager` test suite; 36 bytes long. -/
def uuidBytes : Bytes :=
  [52, 50, 51, 51, 48, 50, 49, 55, 45, 98, 100, 97, 98, 45, 52, 52, 48, 100,
   45, 57, 53, 48, 48, 45, 50, 98, 98, 50, 53, 51, 99, 101, 53, 52, 55, 102]

/-- C2 witness: at the test suite's own UUID the manager's leaf differs
from the specified leaf, while the single-distributor leaf matches it. -/
theorem C2_witness :
    stringManagerNode byteEnc 0 uuidBytes 100
      ≠ specStringLeaf byteEnc 0 uuidBytes 100 ∧
    stringDistributorNode byteEnc 0 uuidBytes 100
      = specStringLeaf byteEnc 0 uuidBytes 100 :=
  ⟨(C2_leaf_encoding byteEnc).2 byteEnc_bytesInjective 0 100 uuidBytes
      (by decide) (by decide),
    (C2_leaf_encoding byteEnc).1 0 100 uuidBytes⟩

/-- C8.  An empty proof makes verification compare the recomputed leaf
digest directly with the stored root; a single-leaf tree's root is its
leaf, so the legitimate empty proof is accepted there; and for every
tree with at least two leaves, under a collision-free hash, a manager
claim carrying an empty proof fails with `InvalidProof` (the leaf
preimage is 84 packed bytes, an internal node's is 64, so the leaf can
never equal the root). -/
theorem C8_empty_proof (H : Bytes → Nat) (pick : Nat → Nat → Bool) :
    (∀ root leaf : Nat, verify H pick [] root leaf = true ↔ leaf = root) ∧
    (∀ l : Nat, buildRoot H pick [l] = l) ∧
    (BytesInjective H →
      ∀ leaves : List Nat, 2 ≤ leaves.length →
      ∀ (tres : Option Bool) (s : ManagerState) (c i a amt : Nat),
        (s.distributionMap c).merkleRoot = buildRoot H pick leaves →
        isClaimed s c i = false →
        amt ≤ (s.distributionMap c).remainingAmount →
        claim H pick tres s c i a amt [] = .err .invalidProof s []) := by
  refine ⟨?_, ?_, ?_⟩
  · intro root leaf
    unfold verify processProof
    simp [List.foldl]
  · intro l
    simp [buildRoot]
  · intro hinj leaves hlen tres s c i a amt hroot hc hr
    rcases buildRoot_shape H pick leaves hlen with ⟨x, y, hshape⟩
    have hne : claimNode H i a amt ≠ (s.distributionMap c).merkleRoot := by
      rw [hroot, hshape]
      intro heq
      have hb₁ : AllBytes (be32 i ++ be20 a ++ be32 amt) :=
        allBytes_append (allBytes_append (beBytes_allBytes 32 i)
          (beBytes_allBytes 20 a)) (beBytes_allBytes 32 amt)
      have hb₂ : AllBytes (be32 x ++ be32 y) :=
        allBytes_append (beBytes_allBytes 32 x) (beBytes_allBytes 32 y)
      have hlists := hinj _ _ hb₁ hb₂ heq
      have hlength := congrArg List.length hlists
      simp only [List.length_append, beBytes_length, be32, be20] at hlength
      omega
    have hv : verify H pick []
        (s.distributionMap c).merkleRoot (claimNode H i a amt) = false := by
      unfold verify processProof
      simpa [List.foldl] using hne
    exact claim_invalidProof H pick tres s c i a amt []
      hc (by omega) hv

/-- Concrete manager state holding a two-leaf tree root for campaign 1. -/
def demoTwoLeafState : ManagerState :=
  { nextDistributionId := 2
    distributionMap := fun c =>
      if c = 1 then ⟨77, buildRoot byteEnc pickLe [5, 7], 100⟩ else ⟨0, 0, 0⟩
    claimedBitMap := fun _ _ => 0 }

/-- C8 witness: against the two-leaf root a claim with an empty proof
fails with `InvalidProof`; against a one-leaf tree the empty proof is
accepted for the leaf itself. -/
theorem C8_witness :
    claim byteEnc pickLe (some true) demoTwoLeafState 1 0 9 100 []
      = .err .invalidProof demoTwoLeafState [] ∧
    verify byteEnc pickLe [] (buildRoot byteEnc pickLe [5]) 5 = true := by
  constructor
  · exact (C8_empty_proof byteEnc pickLe).2.2 byteEnc_bytesInjective [5, 7]
      (by decide) (some true) demoTwoLeafState 1 0 9 100 rfl (by decide)
      (by decide)
  · exact ((C8_empty_proof byteEnc pickLe).1 (buildRoot byteEnc pickLe [5])
      5).mpr ((C8_empty_proof byteEnc pickLe).2.1 5).symm

/-- C9.  The packed claim bitmap faithfully implements
`Set<(campaignId, index)>`: the bit of a pair lives in word
`index / 256` at offset `index % 256`; a pair reads as claimed after a
history of set operations from the fresh state exactly when the history
contains it; setting one pair changes no other pair; and no transaction
of the contract ever clears a set bit. -/
theorem C9_bitmap_faithful (H : Bytes → Nat) (pick : Nat → Nat → Bool) :
    (∀ (s : ManagerState) (c i : Nat),
      isClaimed s c i = (s.claimedBitMap c (i / 256)).testBit (i % 256)) ∧
    (∀ (s : ManagerState) (c i : Nat),
      isClaimed (setClaimed s c i) c i = true) ∧
    (∀ (s : ManagerState) (c i c' i' : Nat), (c', i') ≠ (c, i) →
      isClaimed (setClaimed s c i) c' i' = isClaimed s c' i') ∧
    (∀ (L : List (Nat × Nat)) (c i : Nat),
      isClaimed (setMany emptyState L) c i = decide ((c, i) ∈ L)) ∧
    (∀ (s : ManagerState) (reqs : List Request) (c i : Nat),
      isClaimed s c i = true →
      isClaimed (runRequests H pick s reqs) c i = true) := by
  refine ⟨isClaimed_eq_testBit, isClaimed_setClaimed_self,
    fun s c i c' i' h => isClaimed_setClaimed_other s h, ?_, ?_⟩
  · intro L c i
    rw [isClaimed_setMany, isClaimed_emptyState, Bool.false_or]
  · intro s reqs c i h
    exact runRequests_isClaimed_mono H pick reqs s c i h

/-- C9 witness: setting `(1, 300)` on the demonstration state flips that
pair on (word 1, offset 44) and leaves the neighbouring pair `(1, 299)`
unchanged; a two-step history contains exactly its pairs. -/
theorem C9_witness :
    isClaimed (setClaimed demoState 1 300) 1 300 = true ∧
    isClaimed (setClaimed demoState 1 300) 1 299
      = isClaimed demoState 1 299 ∧
    isClaimed (setMany emptyState [(1, 300), (2, 0)]) 1 300 = true ∧
    isClaimed (setMany emptyState [(1, 300), (2, 0)]) 1 0 = false := by
  have h := C9_bitmap_faithful byteEnc pickLe
  refine ⟨h.2.1 demoState 1 300, h.2.2.1 demoState 1 300 1 299 (by decide),
    ?_, ?_⟩
  · rw [h.2.2.2.1 [(1, 300), (2, 0)] 1 300]
    decide
  · rw [h.2.2.2.1 [(1, 300), (2, 0)] 1 0]
    decide

end MerkleDistributor
